import Mathlib

/-!
Shallow embedding of the wasm encoder (src/main.rs) and proofs about it.

Bytes are modelled as natural numbers; every byte the program writes is
reduced modulo 256 exactly where the Rust code performs a `u8` cast or
`u8` arithmetic.  The `Vec<u8>` buffer is modelled as `List Nat`.  The one
indexing operation that can panic in Rust (`write_length` on a buffer
shorter than `length + 1`) is modelled by an `Option` result, `none`
standing for the panic.
-/

/-- `const MAGIC_NUMBER: u32 = 0x6d736100`. -/
def MAGIC_NUMBER : Nat := 0x6d736100

/-- `const VERSION: u32 = 0x00000001`. -/
def VERSION : Nat := 0x00000001

/-- `const MEMORY_SECTION: u8 = 0x05`. -/
def MEMORY_SECTION : Nat := 0x05

/-- `const EXPORT_SECTION: u8 = 0x07`. -/
def EXPORT_SECTION : Nat := 0x07

/-- The `Opcode` enum of main.rs. -/
inductive Opcode
  | MagicNumber
  | Version
  | MemorySection
  | ExportSection
deriving DecidableEq

/-- The `Emitter` struct: a growable byte buffer (`bytes: Vec<u8>`). -/
structure Emitter where
  bytes : List Nat
deriving DecidableEq

/-- `Emitter::new`. -/
def Emitter.new : Emitter := ⟨[]⟩

/-- `Emitter::as_slice`. -/
def Emitter.as_slice (e : Emitter) : List Nat := e.bytes

/-- `Emitter::push_u8`: `self.bytes.push(byte)`. -/
def Emitter.push_u8 (e : Emitter) (byte : Nat) : Emitter :=
  ⟨e.bytes ++ [byte]⟩

/-- `Emitter::push_u32`: pushes the four little-endian bytes of `value`. -/
def Emitter.push_u32 (e : Emitter) (value : Nat) : Emitter :=
  ⟨e.bytes ++ [value % 256, value / 256 % 256, value / 65536 % 256,
    value / 16777216 % 256]⟩

/-- `Emitter::push_str`: pushes the UTF-8 bytes of the string (here the
string is already given as its list of bytes). -/
def Emitter.push_str (e : Emitter) (s : List Nat) : Emitter :=
  ⟨e.bytes ++ s⟩

/-- `Emitter::write_length`:
`self.bytes[len - (length as usize + 1)] = length`.
When `length + 1` exceeds the buffer length the Rust indexing panics
(usize underflow / index out of bounds); that case is `none` here. -/
def Emitter.write_length (e : Emitter) (length : Nat) : Option Emitter :=
  if length + 1 ≤ e.bytes.length then
    some ⟨e.bytes.set (e.bytes.length - (length + 1)) length⟩
  else
    none

/-- `Emitter::push_opcode`. -/
def Emitter.push_opcode (e : Emitter) : Opcode → Emitter
  | .MagicNumber => e.push_u32 MAGIC_NUMBER
  | .Version => e.push_u32 VERSION
  | .MemorySection => e.push_u8 MEMORY_SECTION
  | .ExportSection => e.push_u8 EXPORT_SECTION

/-- The `Limits` struct (`min: u8`, `max: Option<u8>`). -/
structure Limits where
  min : Nat
  max : Option Nat
deriving DecidableEq

/-- The `Memory` struct. -/
structure Memory where
  limits : Limits
deriving DecidableEq

/-- The `MemorySection` tuple struct (`MemorySection(Vec<Memory>)`). -/
structure MemorySection where
  mems : List Memory
deriving DecidableEq

/-- `impl Emit for Limits`: flag byte, min byte, max byte when present;
returns the number of bytes written (3 or 2). -/
def Limits.emit (l : Limits) (e : Emitter) : Emitter × Nat :=
  match l.max with
  | some mx => (((e.push_u8 1).push_u8 l.min).push_u8 mx, 3)
  | none => ((e.push_u8 0).push_u8 l.min, 2)

/-- Body of the `for memory in self.0.iter()` loop of `MemorySection::emit`:
`byte_count += memory.limits.emit(emitter)` with `byte_count: u8`
(so the addition wraps modulo 256). -/
def memoryEntryStep (p : Emitter × Nat) (m : Memory) : Emitter × Nat :=
  ((m.limits.emit p.1).1, (p.2 + (m.limits.emit p.1).2) % 256)

/-- `impl Emit for MemorySection`: tag, length placeholder, entry count
(`self.0.len() as u8`), the entries, then `write_length`; returns
`byte_count + 2` (u8 arithmetic). -/
def MemorySection.emit (s : MemorySection) (e : Emitter) : Option (Emitter × Nat) :=
  let e1 := e.push_opcode .MemorySection
  let e2 := e1.push_u8 0
  let e3 := e2.push_u8 (s.mems.length % 256)
  let p := s.mems.foldl memoryEntryStep (e3, 1)
  match p.1.write_length p.2 with
  | some e4 => some (e4, (p.2 + 2) % 256)
  | none => none

/-- The `ExportType` enum. -/
inductive ExportType
  | Function
  | Table
  | Memory
  | Global
deriving DecidableEq

/-- The numeric value of each `ExportType` variant (`export_type as u8`). -/
def ExportType.toNat : ExportType → Nat
  | .Function => 0x00
  | .Table => 0x01
  | .Memory => 0x02
  | .Global => 0x03

/-- The `ExportDesc` struct (`export_type: ExportType`, `index: u8`). -/
structure ExportDesc where
  export_type : ExportType
  index : Nat
deriving DecidableEq

/-- The `Export` struct; `name` is the list of UTF-8 bytes of the Rust
`String`. -/
structure Export where
  name : List Nat
  desc : ExportDesc
deriving DecidableEq

/-- The `ExportSection` tuple struct (`ExportSection(Vec<Export>)`). -/
structure ExportSection where
  exports : List Export
deriving DecidableEq

/-- Body of the `for export in self.0.iter()` loop of `ExportSection::emit`:
name-length byte (`name.len() as u8`), name bytes, kind tag, index, and
`byte_count += name.len() as u8 + 3` in wrapping u8 arithmetic. -/
def exportEntryStep (p : Emitter × Nat) (ex : Export) : Emitter × Nat :=
  let e1 := p.1.push_u8 (ex.name.length % 256)
  let e2 := e1.push_str ex.name
  let e3 := e2.push_u8 ex.desc.export_type.toNat
  let e4 := e3.push_u8 ex.desc.index
  (e4, (p.2 + (ex.name.length % 256 + 3) % 256) % 256)

/-- `impl Emit for ExportSection`: mirror of `MemorySection::emit` with
`exportEntryStep` as the per-entry encoder. -/
def ExportSection.emit (s : ExportSection) (e : Emitter) : Option (Emitter × Nat) :=
  let e1 := e.push_opcode .ExportSection
  let e2 := e1.push_u8 0
  let e3 := e2.push_u8 (s.exports.length % 256)
  let p := s.exports.foldl exportEntryStep (e3, 1)
  match p.1.write_length p.2 with
  | some e4 => some (e4, (p.2 + 2) % 256)
  | none => none

/-- The `Section` enum. -/
inductive Section
  | MemorySection (s : MemorySection)
  | ExportSection (s : ExportSection)

/-- `Emitter::push_section`: dispatches on the section kind and discards
the returned byte count. -/
def Emitter.push_section (e : Emitter) : Section → Option Emitter
  | .MemorySection s => (s.emit e).map Prod.fst
  | .ExportSection s => (s.emit e).map Prod.fst

/-- The byte-building part of `main` (the file write is out of scope):
header, then a memory section with the single entry `{min: 1, max: None}`,
then an export section with the single entry
`{name: "mem", kind: Memory, index: 0}` (`"mem"` = bytes 6D 65 6D). -/
def mainBytes : Option (List Nat) :=
  let e0 := Emitter.new
  let e1 := e0.push_opcode .MagicNumber
  let e2 := e1.push_opcode .Version
  match e2.push_section (.MemorySection ⟨[⟨⟨1, none⟩⟩]⟩) with
  | none => none
  | some e3 =>
    match e3.push_section (.ExportSection ⟨[⟨[0x6d, 0x65, 0x6d], ⟨.Memory, 0⟩⟩]⟩) with
    | none => none
    | some e4 => some e4.as_slice

/-- The collaborator interface of the design: fixed 8-byte header, then a
caller-supplied list of sections encoded in order. -/
def encodeModule (sections : List Section) : Option Emitter :=
  sections.foldlM Emitter.push_section
    ((Emitter.new.push_opcode .MagicNumber).push_opcode .Version)

/-- Closed form of the bytes `Limits::emit` appends. -/
def limitsBytes (l : Limits) : List Nat :=
  match l.max with
  | some mx => [1, l.min, mx]
  | none => [0, l.min]

/-- Closed form of the bytes the memory-section entry loop appends. -/
def memBytes (ms : List Memory) : List Nat :=
  (ms.map (fun m => limitsBytes m.limits)).flatten

/-- Closed form of the bytes one export-section loop iteration appends. -/
def exportEntryBytes (ex : Export) : List Nat :=
  ex.name.length % 256 :: (ex.name ++ [ex.desc.export_type.toNat, ex.desc.index])

/-- Closed form of the bytes the export-section entry loop appends. -/
def exportBytes (exs : List Export) : List Nat :=
  (exs.map exportEntryBytes).flatten

/-! ### Helper lemmas: closed forms of the emitters -/

theorem limits_emit_eq (l : Limits) (e : Emitter) :
    l.emit e = (⟨e.bytes ++ limitsBytes l⟩, (limitsBytes l).length) := by
  cases l with
  | mk mn mx =>
    cases mx <;> simp [Limits.emit, limitsBytes, Emitter.push_u8]

theorem memBytes_cons (m : Memory) (rest : List Memory) :
    memBytes (m :: rest) = limitsBytes m.limits ++ memBytes rest := by
  simp [memBytes]

theorem exportBytes_cons (ex : Export) (rest : List Export) :
    exportBytes (ex :: rest) = exportEntryBytes ex ++ exportBytes rest := by
  simp [exportBytes]

theorem mem_foldl_eq (ms : List Memory) (e : Emitter) (a : Nat) (ha : a < 256) :
    ms.foldl memoryEntryStep (e, a) =
      (⟨e.bytes ++ memBytes ms⟩, (a + (memBytes ms).length) % 256) := by
  induction ms generalizing e a with
  | nil =>
    simp [memBytes, Nat.mod_eq_of_lt ha]
  | cons m rest ih =>
    rw [List.foldl_cons]
    have hstep : memoryEntryStep (e, a) m =
        (⟨e.bytes ++ limitsBytes m.limits⟩,
          (a + (limitsBytes m.limits).length) % 256) := by
      simp [memoryEntryStep, limits_emit_eq]
    rw [hstep, ih _ _ (Nat.mod_lt _ (by omega))]
    rw [memBytes_cons, Prod.mk.injEq]
    refine ⟨?_, ?_⟩
    · simp [Emitter.mk.injEq, List.append_assoc]
    · rw [List.length_append]
      omega

theorem export_foldl_eq (exs : List Export) (e : Emitter) (a : Nat) (ha : a < 256) :
    exs.foldl exportEntryStep (e, a) =
      (⟨e.bytes ++ exportBytes exs⟩, (a + (exportBytes exs).length) % 256) := by
  induction exs generalizing e a with
  | nil =>
    simp [exportBytes, Nat.mod_eq_of_lt ha]
  | cons ex rest ih =>
    rw [List.foldl_cons]
    have hstep : exportEntryStep (e, a) ex =
        (⟨e.bytes ++ exportEntryBytes ex⟩,
          (a + (exportEntryBytes ex).length) % 256) := by
      simp only [exportEntryStep, Emitter.push_u8, Emitter.push_str, exportEntryBytes,
        Prod.mk.injEq]
      refine ⟨?_, ?_⟩
      · simp [Emitter.mk.injEq, List.append_assoc]
      · simp only [List.length_cons, List.length_append, List.length_nil]
        omega
    rw [hstep, ih _ _ (Nat.mod_lt _ (by omega))]
    rw [exportBytes_cons, Prod.mk.injEq]
    refine ⟨?_, ?_⟩
    · simp [Emitter.mk.injEq, List.append_assoc]
    · rw [List.length_append]
      omega

theorem write_length_append (l1 u : List Nat) (bc : Nat) (h1 : bc + 1 ≤ u.length) :
    Emitter.write_length ⟨l1 ++ u⟩ bc =
      some ⟨l1 ++ u.set (u.length - (bc + 1)) bc⟩ := by
  have hcond : bc + 1 ≤ (l1 ++ u).length := by
    rw [List.length_append]; omega
  show (if bc + 1 ≤ (l1 ++ u).length then
      some (Emitter.mk ((l1 ++ u).set ((l1 ++ u).length - (bc + 1)) bc)) else none) =
    some ⟨l1 ++ u.set (u.length - (bc + 1)) bc⟩
  rw [if_pos hcond]
  have hset : (l1 ++ u).set ((l1 ++ u).length - (bc + 1)) bc =
      l1 ++ u.set (u.length - (bc + 1)) bc := by
    rw [List.length_append]
    rw [List.set_append_right _ _ (by omega)]
    have hidx : l1.length + u.length - (bc + 1) - l1.length = u.length - (bc + 1) := by
      omega
    rw [hidx]
  rw [hset]

/-- Closed form of `MemorySection::emit` on an arbitrary starting buffer:
the tag, then the placeholder/count/entry region with the (possibly
wrapped) `byte_count` written `byte_count + 1` bytes before the end. -/
theorem memorySection_emit_eq (s : MemorySection) (e : Emitter) :
    s.emit e = some
      (⟨(e.bytes ++ [MEMORY_SECTION]) ++
        ((0 :: s.mems.length % 256 :: memBytes s.mems).set
          ((memBytes s.mems).length + 1 - (1 + (memBytes s.mems).length) % 256)
          ((1 + (memBytes s.mems).length) % 256))⟩,
       ((1 + (memBytes s.mems).length) % 256 + 2) % 256) := by
  have hfold := mem_foldl_eq s.mems
      ⟨((e.bytes ++ [MEMORY_SECTION]) ++ [0]) ++ [s.mems.length % 256]⟩ 1 (by omega)
  simp only [MemorySection.emit, Emitter.push_opcode, Emitter.push_u8]
  rw [hfold]
  have hsplit : (((e.bytes ++ [MEMORY_SECTION]) ++ [0]) ++ [s.mems.length % 256])
      ++ memBytes s.mems =
      (e.bytes ++ [MEMORY_SECTION]) ++ (0 :: s.mems.length % 256 :: memBytes s.mems) := by
    simp
  rw [hsplit]
  rw [write_length_append _ _ _ (by
    simp only [List.length_cons]
    omega)]
  have hidx : (0 :: s.mems.length % 256 :: memBytes s.mems).length -
      ((1 + (memBytes s.mems).length) % 256 + 1) =
      (memBytes s.mems).length + 1 - (1 + (memBytes s.mems).length) % 256 := by
    simp only [List.length_cons]
    omega
  rw [hidx]

/-- Closed form of `ExportSection::emit` on an arbitrary starting buffer. -/
theorem exportSection_emit_eq (s : ExportSection) (e : Emitter) :
    s.emit e = some
      (⟨(e.bytes ++ [EXPORT_SECTION]) ++
        ((0 :: s.exports.length % 256 :: exportBytes s.exports).set
          ((exportBytes s.exports).length + 1 - (1 + (exportBytes s.exports).length) % 256)
          ((1 + (exportBytes s.exports).length) % 256))⟩,
       ((1 + (exportBytes s.exports).length) % 256 + 2) % 256) := by
  have hfold := export_foldl_eq s.exports
      ⟨((e.bytes ++ [EXPORT_SECTION]) ++ [0]) ++ [s.exports.length % 256]⟩ 1 (by omega)
  simp only [ExportSection.emit, Emitter.push_opcode, Emitter.push_u8]
  rw [hfold]
  have hsplit : (((e.bytes ++ [EXPORT_SECTION]) ++ [0]) ++ [s.exports.length % 256])
      ++ exportBytes s.exports =
      (e.bytes ++ [EXPORT_SECTION]) ++
        (0 :: s.exports.length % 256 :: exportBytes s.exports) := by
    simp
  rw [hsplit]
  rw [write_length_append _ _ _ (by
    simp only [List.length_cons]
    omega)]
  have hidx : (0 :: s.exports.length % 256 :: exportBytes s.exports).length -
      ((1 + (exportBytes s.exports).length) % 256 + 1) =
      (exportBytes s.exports).length + 1 - (1 + (exportBytes s.exports).length) % 256 := by
    simp only [List.length_cons]
    omega
  rw [hidx]

/-- When the section body (entry count byte plus entries) fits in one
byte, the wrapped count equals the true count and the backpatch lands
exactly on the placeholder. -/
theorem memorySection_emit_small (s : MemorySection) (e : Emitter)
    (h : 1 + (memBytes s.mems).length ≤ 255) :
    s.emit e = some
      (⟨(e.bytes ++ [MEMORY_SECTION]) ++
        ((1 + (memBytes s.mems).length) :: s.mems.length % 256 :: memBytes s.mems)⟩,
       (1 + (memBytes s.mems).length + 2) % 256) := by
  rw [memorySection_emit_eq]
  have hbc : (1 + (memBytes s.mems).length) % 256 = 1 + (memBytes s.mems).length :=
    Nat.mod_eq_of_lt (by omega)
  rw [hbc]
  have hidx : (memBytes s.mems).length + 1 - (1 + (memBytes s.mems).length) = 0 := by
    omega
  rw [hidx]
  rfl

theorem exportSection_emit_small (s : ExportSection) (e : Emitter)
    (h : 1 + (exportBytes s.exports).length ≤ 255) :
    s.emit e = some
      (⟨(e.bytes ++ [EXPORT_SECTION]) ++
        ((1 + (exportBytes s.exports).length) ::
          s.exports.length % 256 :: exportBytes s.exports)⟩,
       (1 + (exportBytes s.exports).length + 2) % 256) := by
  rw [exportSection_emit_eq]
  have hbc : (1 + (exportBytes s.exports).length) % 256 =
      1 + (exportBytes s.exports).length :=
    Nat.mod_eq_of_lt (by omega)
  rw [hbc]
  have hidx : (exportBytes s.exports).length + 1 - (1 + (exportBytes s.exports).length)
      = 0 := by
    omega
  rw [hidx]
  rfl

/-- The byte right after the section tag, read back from the final
buffer. -/
theorem placeholder_byte (pre : List Nat) (tag b0 cnt : Nat) (mb : List Nat) :
    ((pre ++ [tag]) ++ (b0 :: cnt :: mb))[pre.length + 1]? = some b0 := by
  rw [List.getElem?_append_right (by simp)]
  have hlen : (pre ++ [tag]).length = pre.length + 1 := by simp
  rw [hlen]
  have h0 : pre.length + 1 - (pre.length + 1) = 0 := by omega
  rw [h0]
  simp

/-- The entry-count byte two positions after the section tag survives the
backpatch as long as the backpatch index is not 1. -/
theorem section_count_byte (pre : List Nat) (tag cnt bc k : Nat) (mb : List Nat)
    (hk : k ≠ 1) :
    ((pre ++ [tag]) ++ ((0 :: cnt :: mb).set k bc))[pre.length + 2]? = some cnt := by
  rw [List.getElem?_append_right (by simp)]
  have hlen : (pre ++ [tag]).length = pre.length + 1 := by simp
  rw [hlen]
  have h1 : pre.length + 2 - (pre.length + 1) = 1 := by omega
  rw [h1]
  rw [List.getElem?_set, if_neg (by omega)]
  simp

theorem memorySection_emit_extend (s : MemorySection) (e : Emitter) (p : Emitter × Nat)
    (h : s.emit e = some p) : ∃ t, p.1.bytes = e.bytes ++ t := by
  rw [memorySection_emit_eq] at h
  injection h with h2
  subst h2
  exact ⟨_, List.append_assoc _ _ _⟩

theorem exportSection_emit_extend (s : ExportSection) (e : Emitter) (p : Emitter × Nat)
    (h : s.emit e = some p) : ∃ t, p.1.bytes = e.bytes ++ t := by
  rw [exportSection_emit_eq] at h
  injection h with h2
  subst h2
  exact ⟨_, List.append_assoc _ _ _⟩

/-- `push_section` only ever extends the buffer. -/
theorem push_section_extend (e : Emitter) (sec : Section) (e2 : Emitter)
    (h : e.push_section sec = some e2) : ∃ t, e2.bytes = e.bytes ++ t := by
  cases sec with
  | MemorySection s =>
    simp only [Emitter.push_section] at h
    cases hm : s.emit e with
    | none => rw [hm] at h; simp at h
    | some p =>
      rw [hm] at h
      simp at h
      subst h
      obtain ⟨t, ht⟩ := memorySection_emit_extend s e p hm
      exact ⟨t, ht⟩
  | ExportSection s =>
    simp only [Emitter.push_section] at h
    cases hm : s.emit e with
    | none => rw [hm] at h; simp at h
    | some p =>
      rw [hm] at h
      simp at h
      subst h
      obtain ⟨t, ht⟩ := exportSection_emit_extend s e p hm
      exact ⟨t, ht⟩

/-- Encoding any list of sections only ever extends the buffer. -/
theorem foldlM_sections_extend (secs : List Section) :
    ∀ e e2 : Emitter, List.foldlM Emitter.push_section e secs = some e2 →
      ∃ t, e2.bytes = e.bytes ++ t := by
  induction secs with
  | nil =>
    intro e e2 h
    simp only [List.foldlM_nil] at h
    simp at h
    subst h
    exact ⟨[], (List.append_nil _).symm⟩
  | cons sec rest ih =>
    intro e e2 h
    rw [List.foldlM_cons] at h
    cases hp : e.push_section sec with
    | none => rw [hp] at h; simp at h
    | some e1 =>
      rw [hp] at h
      simp only [Option.bind_eq_bind, Option.some_bind] at h
      obtain ⟨t1, ht1⟩ := push_section_extend e sec e1 hp
      obtain ⟨t2, ht2⟩ := ih e1 e2 h
      exact ⟨t1 ++ t2, by rw [ht2, ht1, List.append_assoc]⟩

/-- C2 (amended): for every encoded section whose body (entry-count byte
plus entries) is at most 255 bytes, after its emit completes the byte at
the length-placeholder offset equals exactly the number of bytes that
follow it up to the end of the buffer. -/
theorem section_length_byte_correct (e : Emitter) (ms : MemorySection)
    (xs : ExportSection)
    (hm : 1 + (memBytes ms.mems).length ≤ 255)
    (hx : 1 + (exportBytes xs.exports).length ≤ 255) :
    (∃ p, ms.emit e = some p ∧
      p.1.bytes.length = e.bytes.length + 3 + (memBytes ms.mems).length ∧
      p.1.bytes[e.bytes.length + 1]? =
        some (p.1.bytes.length - (e.bytes.length + 2))) ∧
    (∃ p, xs.emit e = some p ∧
      p.1.bytes.length = e.bytes.length + 3 + (exportBytes xs.exports).length ∧
      p.1.bytes[e.bytes.length + 1]? =
        some (p.1.bytes.length - (e.bytes.length + 2))) := by
  have hmlen : ((e.bytes ++ [MEMORY_SECTION]) ++
      ((1 + (memBytes ms.mems).length) :: ms.mems.length % 256 :: memBytes ms.mems)).length
      = e.bytes.length + 3 + (memBytes ms.mems).length := by
    simp only [List.length_append, List.length_cons, List.length_nil]
    omega
  have hxlen : ((e.bytes ++ [EXPORT_SECTION]) ++
      ((1 + (exportBytes xs.exports).length) ::
        xs.exports.length % 256 :: exportBytes xs.exports)).length
      = e.bytes.length + 3 + (exportBytes xs.exports).length := by
    simp only [List.length_append, List.length_cons, List.length_nil]
    omega
  refine ⟨⟨_, memorySection_emit_small ms e hm, hmlen, ?_⟩,
          ⟨_, exportSection_emit_small xs e hx, hxlen, ?_⟩⟩
  · rw [hmlen]
    have hsub : e.bytes.length + 3 + (memBytes ms.mems).length - (e.bytes.length + 2)
        = 1 + (memBytes ms.mems).length := by omega
    rw [hsub]
    exact placeholder_byte e.bytes MEMORY_SECTION _ _ _
  · rw [hxlen]
    have hsub : e.bytes.length + 3 + (exportBytes xs.exports).length -
        (e.bytes.length + 2) = 1 + (exportBytes xs.exports).length := by omega
    rw [hsub]
    exact placeholder_byte e.bytes EXPORT_SECTION _ _ _

/-- C2 (witness): the concrete one-entry sections of `main`. -/
theorem section_length_byte_correct_witness :
    (∃ p, MemorySection.emit ⟨[⟨⟨1, none⟩⟩]⟩ ⟨[]⟩ = some p ∧
      p.1.bytes.length =
        (Emitter.mk []).bytes.length + 3 + (memBytes [⟨⟨1, none⟩⟩]).length ∧
      p.1.bytes[(Emitter.mk []).bytes.length + 1]? =
        some (p.1.bytes.length - ((Emitter.mk []).bytes.length + 2))) ∧
    (∃ p, ExportSection.emit ⟨[⟨[0x6d, 0x65, 0x6d], ⟨ExportType.Memory, 0⟩⟩]⟩ ⟨[]⟩
        = some p ∧
      p.1.bytes.length = (Emitter.mk []).bytes.length + 3 +
        (exportBytes [⟨[0x6d, 0x65, 0x6d], ⟨ExportType.Memory, 0⟩⟩]).length ∧
      p.1.bytes[(Emitter.mk []).bytes.length + 1]? =
        some (p.1.bytes.length - ((Emitter.mk []).bytes.length + 2))) :=
  section_length_byte_correct ⟨[]⟩ ⟨[⟨⟨1, none⟩⟩]⟩
    ⟨[⟨[0x6d, 0x65, 0x6d], ⟨ExportType.Memory, 0⟩⟩]⟩ (by decide) (by decide)

set_option maxRecDepth 8000 in
/-- C2 (counterexample): a memory section of 128 two-byte entries has a
257-byte body; the u8 byte count wraps to 1 and is written at the wrong
offset, so the byte at the length-placeholder offset (index 1 here) stays
0 while 257 bytes follow it. -/
theorem mem_overflow_length_byte_wrong :
    (MemorySection.emit ⟨List.replicate 128 ⟨⟨0, none⟩⟩⟩ ⟨[]⟩).map
      (fun p => (p.1.bytes[1]?, p.1.bytes.length)) = some (some 0, 259) ∧
    (0 : Nat) ≠ 259 - 2 := by
  exact ⟨by decide, by decide⟩

/-- C3 (counterexample): on the buffer [5, 0] (a tag byte and the fresh
placeholder) a backpatch with n = 7 does not overwrite any byte: `n + 1`
exceeds the buffer length, the Rust indexing panics (modelled by `none`),
so the claim's universally quantified description fails here. -/
theorem write_length_short_buffer_fails :
    Emitter.write_length ⟨[5, 0]⟩ 7 = none := by decide

/-- C3 (amended): provided `n + 1` does not exceed the buffer length
(otherwise the operation panics on out-of-bounds indexing), the backpatch
overwrites exactly the byte `n + 1` positions before the end with the
value `n`, changes no other byte, and leaves the buffer length
unchanged. -/
theorem write_length_single_byte (e : Emitter) (n : Nat)
    (h : n + 1 ≤ e.bytes.length) :
    ∃ e2, e.write_length n = some e2 ∧
      e2.bytes.length = e.bytes.length ∧
      e2.bytes[e.bytes.length - (n + 1)]? = some n ∧
      ∀ i, i ≠ e.bytes.length - (n + 1) → e2.bytes[i]? = e.bytes[i]? := by
  refine ⟨⟨e.bytes.set (e.bytes.length - (n + 1)) n⟩, ?_, by simp, ?_, ?_⟩
  · unfold Emitter.write_length
    rw [if_pos h]
  · show (e.bytes.set (e.bytes.length - (n + 1)) n)[e.bytes.length - (n + 1)]? = some n
    rw [List.getElem?_set, if_pos rfl, if_pos (by omega)]
  · intro i hi
    show (e.bytes.set (e.bytes.length - (n + 1)) n)[i]? = e.bytes[i]?
    rw [List.getElem?_set, if_neg (by omega)]

/-- C3 (witness): buffer [9, 9, 9, 9] and n = 2. -/
theorem write_length_single_byte_witness :
    2 + 1 ≤ (Emitter.mk [9, 9, 9, 9]).bytes.length ∧
    (∃ e2, (Emitter.mk [9, 9, 9, 9]).write_length 2 = some e2 ∧
      e2.bytes.length = (Emitter.mk [9, 9, 9, 9]).bytes.length ∧
      e2.bytes[(Emitter.mk [9, 9, 9, 9]).bytes.length - (2 + 1)]? = some 2 ∧
      ∀ i, i ≠ (Emitter.mk [9, 9, 9, 9]).bytes.length - (2 + 1) →
        e2.bytes[i]? = (Emitter.mk [9, 9, 9, 9]).bytes[i]?) :=
  ⟨by decide, write_length_single_byte ⟨[9, 9, 9, 9]⟩ 2 (by decide)⟩

/-- C6: whatever sections follow the two header writes, the first 8 bytes
of the output are the little-endian magic number and version constants:
no section emit modifies them. -/
theorem header_bytes_fixed (secs : List Section) (e2 : Emitter)
    (h : encodeModule secs = some e2) :
    e2.bytes.take 8 =
      ((Emitter.new.push_opcode Opcode.MagicNumber).push_opcode Opcode.Version).bytes ∧
    e2.bytes.take 8 = [0x00, 0x61, 0x73, 0x6D, 0x01, 0x00, 0x00, 0x00] := by
  unfold encodeModule at h
  obtain ⟨t, ht⟩ := foldlM_sections_extend secs
    ((Emitter.new.push_opcode Opcode.MagicNumber).push_opcode Opcode.Version) e2 h
  have hh : ((Emitter.new.push_opcode Opcode.MagicNumber).push_opcode
      Opcode.Version).bytes = [0x00, 0x61, 0x73, 0x6D, 0x01, 0x00, 0x00, 0x00] := by
    decide
  rw [ht, hh]
  exact ⟨List.take_left' (by decide), List.take_left' (by decide)⟩

/-- C6 (witness): the empty section list. -/
theorem header_bytes_fixed_witness :
    encodeModule [] = some
      ((Emitter.new.push_opcode Opcode.MagicNumber).push_opcode Opcode.Version) ∧
    (((Emitter.new.push_opcode Opcode.MagicNumber).push_opcode
        Opcode.Version).bytes.take 8 =
      ((Emitter.new.push_opcode Opcode.MagicNumber).push_opcode Opcode.Version).bytes ∧
    ((Emitter.new.push_opcode Opcode.MagicNumber).push_opcode
        Opcode.Version).bytes.take 8 =
      [0x00, 0x61, 0x73, 0x6D, 0x01, 0x00, 0x00, 0x00]) :=
  ⟨by decide, header_bytes_fixed []
    ((Emitter.new.push_opcode Opcode.MagicNumber).push_opcode Opcode.Version)
    (by decide)⟩

/-- C7 (counterexample): buffer [7, 0] (tag and fresh placeholder), zero
bytes appended since the placeholder, and the mismatched length n = 9:
the operation does not complete silently — the Rust indexing panics
(modelled by `none`). -/
theorem write_length_mismatch_can_panic :
    Emitter.write_length ⟨[7, 0]⟩ 9 = none := by decide

/-- C7 (amended): for a buffer `front ++ 0 :: body` whose placeholder was
followed by exactly `body` appended bytes, a backpatch with any mismatched
`n ≠ body.length` such that `n + 1` does not exceed the buffer length
still completes without any mismatch check, silently writing `n` at the
offset `n + 1` before the end (in general corrupting the output); with
`n + 1` beyond the buffer length it instead panics. -/
theorem write_length_no_mismatch_check (front body : List Nat) (n : Nat)
    (hmis : n ≠ body.length) (hbound : n + 1 ≤ front.length + 1 + body.length) :
    ∃ e2, Emitter.write_length ⟨front ++ 0 :: body⟩ n = some e2 ∧
      e2.bytes = (front ++ 0 :: body).set
        (front.length + 1 + body.length - (n + 1)) n ∧
      e2.bytes.length = front.length + 1 + body.length := by
  have hlen : (front ++ 0 :: body).length = front.length + 1 + body.length := by
    simp only [List.length_append, List.length_cons]
    omega
  refine ⟨⟨(front ++ 0 :: body).set (front.length + 1 + body.length - (n + 1)) n⟩,
    ?_, rfl, ?_⟩
  · unfold Emitter.write_length
    rw [if_pos (by rw [hlen]; omega)]
    rw [hlen]
  · rw [List.length_set, hlen]

/-- C7 (witness): front [7], body [3, 4], mismatched n = 1 ≠ 2. -/
theorem write_length_no_mismatch_check_witness :
    (1 : Nat) ≠ [3, 4].length ∧ 1 + 1 ≤ [(7 : Nat)].length + 1 + [3, 4].length ∧
    (∃ e2, Emitter.write_length ⟨[7] ++ 0 :: [3, 4]⟩ 1 = some e2 ∧
      e2.bytes = ([7] ++ 0 :: [3, 4]).set
        ([(7 : Nat)].length + 1 + [3, 4].length - (1 + 1)) 1 ∧
      e2.bytes.length = [(7 : Nat)].length + 1 + [3, 4].length) :=
  ⟨by decide, by decide,
    write_length_no_mismatch_check [7] [3, 4] 1 (by decide) (by decide)⟩

/-- C1 (counterexample): the program's output differs from the byte
sequence the claim specifies: the export section's length byte is 07
(count byte + 6 descriptor bytes), not 06. -/
theorem main_output_ne_claimed :
    mainBytes ≠ some [0x00, 0x61, 0x73, 0x6D, 0x01, 0x00, 0x00, 0x00,
      0x05, 0x03, 0x01, 0x00, 0x01,
      0x07, 0x06, 0x01, 0x03, 0x6D, 0x65, 0x6D, 0x02, 0x00] := by
  decide

/-- C1 (amended): encoding the header, the memory section
`[{min:1, max:None}]` and the export section `[{name:"mem", kind:Memory,
index:0}]` against a fresh emitter produces exactly
00 61 73 6D 01 00 00 00 05 03 01 00 01 07 07 01 03 6D 65 6D 02 00:
the export section's length byte is 07. -/
theorem main_output_bytes :
    mainBytes = some [0x00, 0x61, 0x73, 0x6D, 0x01, 0x00, 0x00, 0x00,
      0x05, 0x03, 0x01, 0x00, 0x01,
      0x07, 0x07, 0x01, 0x03, 0x6D, 0x65, 0x6D, 0x02, 0x00] := by
  decide

/-- C4: `Limits::emit` appends a 1-byte flag (1 if `max` is present, else
0), then `min` as one byte, then — only if present — `max` as one byte,
and returns 3 when `max` is present and 2 when it is absent. -/
theorem limits_emit_contract (l : Limits) (e : Emitter) :
    l.emit e = (⟨e.bytes ++ limitsBytes l⟩,
      match l.max with | some _ => 3 | none => 2) := by
  cases l with
  | mk mn mx =>
    cases mx <;> simp [Limits.emit, limitsBytes, Emitter.push_u8]

/-- A 256-byte export name, used to exhibit name-length wrapping. -/
def bigName : List Nat := List.replicate 256 97

/-- A 255-byte export name, the largest representable one. -/
def name255 : List Nat := List.replicate 255 109

set_option maxRecDepth 16000 in
/-- C5 (counterexample): a descriptor with a 256-byte name emits the
name-length byte 0 (256 wrapped to u8), and its contribution to the
running body-length count is 3, not name length + 3 = 259: starting from
count 1 the running count becomes 4, where the claim predicts 260. -/
theorem export_entry_overflow_name :
    (exportEntryStep (⟨[]⟩, 1) ⟨bigName, ⟨ExportType.Function, 0⟩⟩).2 = 4 ∧
    (exportEntryStep (⟨[]⟩, 1) ⟨bigName, ⟨ExportType.Function, 0⟩⟩).1.bytes[0]? =
      some 0 ∧
    1 + (bigName.length + 3) = 260 := by
  refine ⟨by decide, by decide, by decide⟩

/-- C5 (amended): for every export descriptor whose name is at most 255
bytes, the loop iteration appends exactly the 1-byte name length, the raw
name bytes, the 1-byte kind tag (function=0x00, table=0x01, memory=0x02,
global=0x03) and the 1-byte index, and adds name length + 3 to the
modulo-256 running body-length count. -/
theorem export_entry_contract (p : Emitter × Nat) (ex : Export)
    (h : ex.name.length ≤ 255) :
    (exportEntryStep p ex).1.bytes =
      p.1.bytes ++ ex.name.length ::
        (ex.name ++ [ex.desc.export_type.toNat, ex.desc.index]) ∧
    (exportEntryStep p ex).2 = (p.2 + (ex.name.length + 3)) % 256 ∧
    ExportType.toNat ExportType.Function = 0x00 ∧
    ExportType.toNat ExportType.Table = 0x01 ∧
    ExportType.toNat ExportType.Memory = 0x02 ∧
    ExportType.toNat ExportType.Global = 0x03 := by
  have hmod : ex.name.length % 256 = ex.name.length := Nat.mod_eq_of_lt (by omega)
  refine ⟨?_, ?_, rfl, rfl, rfl, rfl⟩
  · simp [exportEntryStep, Emitter.push_u8, Emitter.push_str, hmod, List.append_assoc]
  · simp only [exportEntryStep]
    omega

/-- C5 (witness): the "mem" descriptor of main. -/
theorem export_entry_contract_witness :
    ([0x6d, 0x65, 0x6d] : List Nat).length ≤ 255 ∧
    ((exportEntryStep (⟨[]⟩, 1) ⟨[0x6d, 0x65, 0x6d], ⟨ExportType.Memory, 0⟩⟩).1.bytes =
      [3, 0x6d, 0x65, 0x6d, 0x02, 0x00] ∧
    (exportEntryStep (⟨[]⟩, 1) ⟨[0x6d, 0x65, 0x6d], ⟨ExportType.Memory, 0⟩⟩).2 = 7 ∧
    ExportType.toNat ExportType.Function = 0x00 ∧
    ExportType.toNat ExportType.Table = 0x01 ∧
    ExportType.toNat ExportType.Memory = 0x02 ∧
    ExportType.toNat ExportType.Global = 0x03) :=
  ⟨by decide,
    export_entry_contract (⟨[]⟩, 1) ⟨[0x6d, 0x65, 0x6d], ⟨ExportType.Memory, 0⟩⟩
      (by decide)⟩

/-- C8 (amended): out-of-range quantities never make encoding fail: every
section emit succeeds, an entry count beyond 255 appears in the output
wrapped to its low 8 bits, and an export name length beyond 255 is
emitted wrapped to its low 8 bits.  An out-of-range section body length
also does not fail, but its wrapped value is written at the wrong offset
(inside the body) while the length position keeps the placeholder 0, so
it is not simply "the wrapped body length in the output" (see the
counterexample).  The index field is 8-bit by construction and cannot be
out of range. -/
theorem overflow_wraps (e : Emitter) (ms : MemorySection) (xs : ExportSection)
    (p : Emitter × Nat) (ex : Export) :
    (∃ q, ms.emit e = some q ∧
      q.1.bytes[e.bytes.length + 2]? = some (ms.mems.length % 256)) ∧
    (∃ q, xs.emit e = some q ∧
      q.1.bytes[e.bytes.length + 2]? = some (xs.exports.length % 256)) ∧
    (exportEntryStep p ex).1.bytes =
      p.1.bytes ++ ex.name.length % 256 ::
        (ex.name ++ [ex.desc.export_type.toNat, ex.desc.index]) := by
  refine ⟨⟨_, memorySection_emit_eq ms e, ?_⟩, ⟨_, exportSection_emit_eq xs e, ?_⟩, ?_⟩
  · show ((e.bytes ++ [MEMORY_SECTION]) ++
      ((0 :: ms.mems.length % 256 :: memBytes ms.mems).set
        ((memBytes ms.mems).length + 1 - (1 + (memBytes ms.mems).length) % 256)
        ((1 + (memBytes ms.mems).length) % 256)))[e.bytes.length + 2]? =
      some (ms.mems.length % 256)
    exact section_count_byte e.bytes MEMORY_SECTION _ _ _ _ (by omega)
  · show ((e.bytes ++ [EXPORT_SECTION]) ++
      ((0 :: xs.exports.length % 256 :: exportBytes xs.exports).set
        ((exportBytes xs.exports).length + 1 - (1 + (exportBytes xs.exports).length) % 256)
        ((1 + (exportBytes xs.exports).length) % 256)))[e.bytes.length + 2]? =
      some (xs.exports.length % 256)
    exact section_count_byte e.bytes EXPORT_SECTION _ _ _ _ (by omega)
  · simp [exportEntryStep, Emitter.push_u8, Emitter.push_str, List.append_assoc]

set_option maxRecDepth 16000 in
/-- C8 (counterexample): a memory section with 128 two-byte entries has a
257-byte body.  Encoding does not fail, but the wrapped body length
(257 mod 256 = 1) does not appear at the length position of the output:
the byte at length-position 1 stays 0. -/
theorem body_length_wrap_not_at_length_position :
    (MemorySection.emit ⟨List.replicate 128 ⟨⟨7, none⟩⟩⟩ ⟨[]⟩).map
      (fun q => q.1.bytes[1]?) = some (some 0) ∧
    (1 + 256) % 256 = 1 ∧ (0 : Nat) ≠ 1 := by
  refine ⟨by decide, by decide, by decide⟩

/-- C9: a descriptor whose name is exactly 255 bytes long is emitted with
name-length byte 0xFF followed by all 255 raw name bytes (then the kind
tag and index). -/
theorem export_entry_name_255 (p : Emitter × Nat) (ex : Export)
    (h : ex.name.length = 255) :
    (exportEntryStep p ex).1.bytes =
      p.1.bytes ++ 0xFF ::
        (ex.name ++ [ex.desc.export_type.toNat, ex.desc.index]) := by
  simp [exportEntryStep, Emitter.push_u8, Emitter.push_str, h, List.append_assoc]

/-- C9 (witness): a concrete 255-byte name. -/
theorem export_entry_name_255_witness :
    name255.length = 255 ∧
    (exportEntryStep (⟨[]⟩, 1) ⟨name255, ⟨ExportType.Memory, 0⟩⟩).1.bytes =
      [] ++ 0xFF :: (name255 ++ [ExportType.toNat ExportType.Memory, 0]) :=
  ⟨by simp only [name255, List.length_replicate],
    export_entry_name_255 (⟨[]⟩, 1) ⟨name255, ⟨ExportType.Memory, 0⟩⟩
      (by simp only [name255, List.length_replicate])⟩

/-- C10: every byte-sink operation either appends bytes at the end of the
buffer (push_u8, push_u32, push_str) or, for a completing backpatch,
overwrites exactly one existing byte in place; the buffer length never
decreases, so every previously computed offset remains valid. -/
theorem byte_sink_append_or_overwrite (e : Emitter) (b v : Nat) (s : List Nat)
    (n : Nat) (e2 : Emitter) (h : e.write_length n = some e2) :
    (e.push_u8 b).bytes = e.bytes ++ [b] ∧
    (e.push_u32 v).bytes =
      e.bytes ++ [v % 256, v / 256 % 256, v / 65536 % 256, v / 16777216 % 256] ∧
    (e.push_str s).bytes = e.bytes ++ s ∧
    e2.bytes.length = e.bytes.length ∧
    ∃ i, i < e.bytes.length ∧ e2.bytes = e.bytes.set i n := by
  have hcond : n + 1 ≤ e.bytes.length := by
    by_contra hc
    unfold Emitter.write_length at h
    rw [if_neg hc] at h
    exact Option.noConfusion h
  have he2 : e2.bytes = e.bytes.set (e.bytes.length - (n + 1)) n := by
    unfold Emitter.write_length at h
    rw [if_pos hcond] at h
    injection h with h2
    rw [← h2]
  refine ⟨rfl, rfl, rfl, by rw [he2]; simp,
    ⟨e.bytes.length - (n + 1), by omega, he2⟩⟩

/-- C10 (witness): buffer [8, 0, 1] with a completing backpatch n = 1. -/
theorem byte_sink_append_or_overwrite_witness :
    Emitter.write_length ⟨[8, 0, 1]⟩ 1 = some ⟨[8, 1, 1]⟩ ∧
    (((Emitter.mk [8, 0, 1]).push_u8 5).bytes = [8, 0, 1] ++ [5] ∧
    ((Emitter.mk [8, 0, 1]).push_u32 MAGIC_NUMBER).bytes =
      [8, 0, 1] ++ [MAGIC_NUMBER % 256, MAGIC_NUMBER / 256 % 256,
        MAGIC_NUMBER / 65536 % 256, MAGIC_NUMBER / 16777216 % 256] ∧
    ((Emitter.mk [8, 0, 1]).push_str [1, 2]).bytes = [8, 0, 1] ++ [1, 2] ∧
    (Emitter.mk [8, 1, 1]).bytes.length = (Emitter.mk [8, 0, 1]).bytes.length ∧
    ∃ i, i < (Emitter.mk [8, 0, 1]).bytes.length ∧
      (Emitter.mk [8, 1, 1]).bytes = (Emitter.mk [8, 0, 1]).bytes.set i 1) :=
  ⟨by decide,
    byte_sink_append_or_overwrite ⟨[8, 0, 1]⟩ 5 MAGIC_NUMBER [1, 2] 1 ⟨[8, 1, 1]⟩
      (by decide)⟩
